import Mathlib

/-!
Shallow embedding of the token-bucket rate limiter of
`src/middlewares/tokenBucketLimiter.ts` (class `TokenBucketRateLimiter`)
and of the auth policy instantiation in `src/middlewares/rateLimiter.ts`.

JavaScript numbers are modelled as exact rationals (`ℚ`); `Date.now()`
timestamps (milliseconds) are passed explicitly as a `now : ℚ` argument, so
the stateful method `isAllowed` becomes a pure function from the bucket
store, the clock reading and the client key to a decision and the new store.
The `Map<string, TokenBucket>` is modelled as an association list with
first-match lookup, insert-or-replace update, and filter-based deletion.
-/

namespace TokenBucketLimiter

/-- Per-client bucket state, from the `TokenBucket` interface:
`tokens` is the current (possibly fractional) token count and
`lastRefillTime` the millisecond timestamp of the last refill. -/
structure TokenBucket where
  tokens : ℚ
  lastRefillTime : ℚ
  deriving DecidableEq

/-- Limiter configuration, from the `RateLimitConfig` interface:
`capacity` is the maximum token count, `refillRate` is in tokens per
second.  (`timeWindowMs` is display-only in the source and not modelled.) -/
structure RateLimitConfig where
  capacity : ℚ
  refillRate : ℚ
  deriving DecidableEq

/-- The record returned by `isAllowed`. -/
structure Decision where
  allowed : Bool
  tokensRemaining : ℤ
  resetTime : ℤ
  deriving DecidableEq

/-- The `buckets` map of a limiter instance, as an association list. -/
abbrev Store := List (String × TokenBucket)

/-- `Map.get`: first entry with the given key, if any. -/
def Store.get : Store → String → Option TokenBucket
  | [], _ => none
  | (k, b) :: rest, key => if k = key then some b else Store.get rest key

/-- `Map.set`: replace the entry for the key, or append a new one. -/
def Store.set : Store → String → TokenBucket → Store
  | [], key, b => [(key, b)]
  | (k, b0) :: rest, key, b =>
      if k = key then (key, b) :: rest else (k, b0) :: Store.set rest key b

/-- `Map.delete`: remove every entry with the given key. -/
def Store.delete (s : Store) (key : String) : Store :=
  s.filter (fun kb => kb.1 ≠ key)

/-- Lines 42 to 49 of `isAllowed`: look the bucket up, creating a full one
(`tokens = capacity`, `lastRefillTime = now`) when the key is absent. -/
def getOrCreate (cfg : RateLimitConfig) (now : ℚ) (s : Store) (clientId : String) :
    TokenBucket :=
  match Store.get s clientId with
  | some b => b
  | none => { tokens := cfg.capacity, lastRefillTime := now }

/-- Lines 52 to 56 of `isAllowed`: lazy refill.  `timePassed` is
`(now - lastRefillTime) / 1000` seconds, `tokensToAdd = timePassed *
refillRate`, and the result is clamped at `capacity` by `Math.min`. -/
def refillTokens (cfg : RateLimitConfig) (now : ℚ) (b : TokenBucket) : ℚ :=
  min cfg.capacity (b.tokens + ((now - b.lastRefillTime) / 1000) * cfg.refillRate)

/-- `TokenBucketRateLimiter.isAllowed`, lines 34 to 81 of
`tokenBucketLimiter.ts`.  Returns the decision together with the post-call
bucket store (in the source the bucket object is mutated in place and the
map keeps pointing at it; here the updated bucket is written back). -/
def isAllowed (cfg : RateLimitConfig) (now : ℚ) (s : Store) (clientId : String) :
    Decision × Store :=
  let bucket := getOrCreate cfg now s clientId
  let newTokens := refillTokens cfg now bucket
  if 1 ≤ newTokens then
    ({ allowed := true
       tokensRemaining := ⌊newTokens - 1⌋
       resetTime := ⌈(cfg.capacity - (newTokens - 1)) / cfg.refillRate⌉ },
     Store.set s clientId { tokens := newTokens - 1, lastRefillTime := now })
  else
    ({ allowed := false
       tokensRemaining := 0
       resetTime := ⌈((1 - newTokens) / cfg.refillRate) * 1000⌉ },
     Store.set s clientId { tokens := newTokens, lastRefillTime := now })

/-- `TokenBucketRateLimiter.resetBucket`, lines 86 to 88. -/
def resetBucket (s : Store) (clientId : String) : Store :=
  Store.delete s clientId

/-- Token count stored for the checked key right after a call: the refilled
count, minus one when the request was admitted. -/
def postTokens (cfg : RateLimitConfig) (now : ℚ) (s : Store) (clientId : String) : ℚ :=
  let newTokens := refillTokens cfg now (getOrCreate cfg now s clientId)
  if 1 ≤ newTokens then newTokens - 1 else newTokens

/-- The `authBucket` policy of `rateLimiter.ts`: 5 tokens per 15 minutes. -/
def authConfig : RateLimitConfig :=
  { capacity := 5, refillRate := 5 / 900 }

/-- Run a sequence of checks; each call is a pair of a `Date.now()` reading
and a client key. -/
def runTrace (cfg : RateLimitConfig) (s : Store) (calls : List (ℚ × String)) : Store :=
  calls.foldl (fun st c => (isAllowed cfg c.1 st c.2).2) s

/-- Store after `n` back-to-back checks of the same key at the same time. -/
def repeatCalls (cfg : RateLimitConfig) (now : ℚ) (k : String) : Store → ℕ → Store
  | s, 0 => s
  | s, n + 1 => repeatCalls cfg now k (isAllowed cfg now s k).2 n

/-- Decision of the `(i+1)`-th of a run of same-time checks of one key. -/
def nthDecision (cfg : RateLimitConfig) (now : ℚ) (k : String) (s : Store) (i : ℕ) :
    Decision :=
  (isAllowed cfg now (repeatCalls cfg now k s i) k).1

/-- How many of `n` back-to-back same-time checks of key `k` are admitted. -/
def allowedCount (cfg : RateLimitConfig) (now : ℚ) (k : String) : Store → ℕ → ℕ
  | _, 0 => 0
  | s, n + 1 =>
      (if (isAllowed cfg now s k).1.allowed then 1 else 0) +
        allowedCount cfg now k (isAllowed cfg now s k).2 n

/-- Store invariant relative to a time watermark `T`: every bucket holds
between `0` and `capacity` tokens and was last refilled no later than `T`. -/
def StoreInv (cfg : RateLimitConfig) (T : ℚ) (s : Store) : Prop :=
  ∀ e ∈ s, 0 ≤ (Prod.snd e).tokens ∧ (Prod.snd e).tokens ≤ cfg.capacity ∧
    (Prod.snd e).lastRefillTime ≤ T

theorem get_set_self (s : Store) (k : String) (b : TokenBucket) :
    Store.get (Store.set s k b) k = some b := by
  induction s with
  | nil => simp [Store.set, Store.get]
  | cons hd tl ih =>
      by_cases h : hd.1 = k
      · simp [Store.set, Store.get, h]
      · simp [Store.set, Store.get, h, ih]

theorem get_set_ne (s : Store) (k k2 : String) (b : TokenBucket) (h : k2 ≠ k) :
    Store.get (Store.set s k b) k2 = Store.get s k2 := by
  have hk : ¬(k = k2) := fun hh => h (Eq.symm hh)
  induction s with
  | nil => simp [Store.set, Store.get, hk]
  | cons hd tl ih =>
      by_cases hh : hd.1 = k
      · have h2 : ¬(hd.1 = k2) := by rw [hh]; exact hk
        simp [Store.set, Store.get, hh, hk, h2, h]
      · by_cases hk2 : hd.1 = k2
        · simp [Store.set, Store.get, hh, hk2, hk, h]
        · simp [Store.set, Store.get, hh, hk2, ih]

theorem mem_set {s : Store} {k : String} {b : TokenBucket} {x : String × TokenBucket}
    (hx : x ∈ Store.set s k b) : x = (k, b) ∨ x ∈ s := by
  induction s with
  | nil => simpa [Store.set] using hx
  | cons hd tl ih =>
      by_cases h : hd.1 = k
      · rcases (by simpa [Store.set, h] using hx : x = (k, b) ∨ x ∈ tl) with h1 | h1
        · exact Or.inl h1
        · exact Or.inr (List.mem_cons_of_mem _ h1)
      · rcases (by simpa [Store.set, h] using hx : x = hd ∨ x ∈ Store.set tl k b) with h1 | h1
        · exact Or.inr (by simp [h1])
        · rcases ih h1 with h2 | h2
          · exact Or.inl h2
          · exact Or.inr (List.mem_cons_of_mem _ h2)

theorem get_mem {s : Store} {k : String} {b : TokenBucket}
    (h : Store.get s k = some b) : (k, b) ∈ s := by
  induction s with
  | nil => simp [Store.get] at h
  | cons hd tl ih =>
      by_cases hh : hd.1 = k
      · have : some hd.2 = some b := by simpa [Store.get, hh] using h
        have hb : hd.2 = b := by injection this
        subst hb
        have : hd = (k, hd.2) := by
          cases hd; simp_all
        simp [← this]
      · exact List.mem_cons_of_mem _ (ih (by simpa [Store.get, hh] using h))

theorem get_none_notmem {s : Store} {k : String} (h : Store.get s k = none) :
    ∀ x ∈ s, x.1 ≠ k := by
  induction s with
  | nil => simp
  | cons hd tl ih =>
      intro x hx
      by_cases hh : hd.1 = k
      · simp [Store.get, hh] at h
      · rcases List.mem_cons.mp hx with rfl | hmem
        · exact hh
        · exact ih (by simpa [Store.get, hh] using h) x hmem

theorem delete_of_get_none {s : Store} {k : String} (h : Store.get s k = none) :
    Store.delete s k = s := by
  have hne := get_none_notmem h
  unfold Store.delete
  apply List.filter_eq_self.mpr
  intro x hx
  simpa using hne x hx

theorem get_delete_self (s : Store) (k : String) :
    Store.get (Store.delete s k) k = none := by
  induction s with
  | nil => simp [Store.delete, Store.get]
  | cons hd tl ih =>
      by_cases h : hd.1 = k
      · simpa [Store.delete, h] using ih
      · simpa [Store.delete, Store.get, h] using ih

theorem isAllowed_snd (cfg : RateLimitConfig) (now : ℚ) (s : Store) (k : String) :
    (isAllowed cfg now s k).2 =
      Store.set s k { tokens := postTokens cfg now s k, lastRefillTime := now } := by
  unfold isAllowed postTokens
  by_cases h : 1 ≤ refillTokens cfg now (getOrCreate cfg now s k)
  · simp [h]
  · simp [h]

theorem isAllowed_fst_pos (cfg : RateLimitConfig) (now : ℚ) (s : Store) (k : String)
    (h : 1 ≤ refillTokens cfg now (getOrCreate cfg now s k)) :
    (isAllowed cfg now s k).1 =
      { allowed := true
        tokensRemaining := ⌊refillTokens cfg now (getOrCreate cfg now s k) - 1⌋
        resetTime := ⌈(cfg.capacity - (refillTokens cfg now (getOrCreate cfg now s k) - 1)) /
          cfg.refillRate⌉ } := by
  unfold isAllowed
  simp [h]

theorem isAllowed_fst_neg (cfg : RateLimitConfig) (now : ℚ) (s : Store) (k : String)
    (h : ¬1 ≤ refillTokens cfg now (getOrCreate cfg now s k)) :
    (isAllowed cfg now s k).1 =
      { allowed := false
        tokensRemaining := 0
        resetTime := ⌈((1 - refillTokens cfg now (getOrCreate cfg now s k)) /
          cfg.refillRate) * 1000⌉ } := by
  unfold isAllowed
  simp [h]

theorem allowed_iff (cfg : RateLimitConfig) (now : ℚ) (s : Store) (k : String) :
    (isAllowed cfg now s k).1.allowed = true ↔
      1 ≤ refillTokens cfg now (getOrCreate cfg now s k) := by
  by_cases h : 1 ≤ refillTokens cfg now (getOrCreate cfg now s k)
  · rw [isAllowed_fst_pos cfg now s k h]; simpa using h
  · rw [isAllowed_fst_neg cfg now s k h]; simpa using h

theorem allowed_eq_false (cfg : RateLimitConfig) (now : ℚ) (s : Store) (k : String)
    (h : ¬1 ≤ refillTokens cfg now (getOrCreate cfg now s k)) :
    (isAllowed cfg now s k).1.allowed = false := by
  rw [← Bool.not_eq_true]
  exact fun hc => h ((allowed_iff cfg now s k).mp hc)

theorem refillTokens_le (cfg : RateLimitConfig) (now : ℚ) (b : TokenBucket) :
    refillTokens cfg now b ≤ cfg.capacity := min_le_left _ _

theorem refillTokens_nonneg (cfg : RateLimitConfig) {now : ℚ} {b : TokenBucket}
    (hcap : 0 ≤ cfg.capacity) (hrate : 0 ≤ cfg.refillRate)
    (h0 : 0 ≤ b.tokens) (hlt : b.lastRefillTime ≤ now) :
    0 ≤ refillTokens cfg now b :=
  le_min hcap (add_nonneg h0
    (mul_nonneg (div_nonneg (sub_nonneg.mpr hlt) (by norm_num)) hrate))

theorem refillTokens_ge (cfg : RateLimitConfig) {now : ℚ} {b : TokenBucket}
    (hrate : 0 ≤ cfg.refillRate) (hcapb : b.tokens ≤ cfg.capacity)
    (hlt : b.lastRefillTime ≤ now) :
    b.tokens ≤ refillTokens cfg now b :=
  le_min hcapb (le_add_of_nonneg_right
    (mul_nonneg (div_nonneg (sub_nonneg.mpr hlt) (by norm_num)) hrate))

theorem refill_now (cfg : RateLimitConfig) (now : ℚ) (t : ℚ) :
    refillTokens cfg now { tokens := t, lastRefillTime := now } = min cfg.capacity t := by
  simp [refillTokens]

theorem getOrCreate_of_get {cfg : RateLimitConfig} {now : ℚ} {s : Store} {k : String}
    {b : TokenBucket} (h : Store.get s k = some b) :
    getOrCreate cfg now s k = b := by
  unfold getOrCreate
  rw [h]

theorem getOrCreate_of_none {cfg : RateLimitConfig} {now : ℚ} {s : Store} {k : String}
    (h : Store.get s k = none) :
    getOrCreate cfg now s k = { tokens := cfg.capacity, lastRefillTime := now } := by
  unfold getOrCreate
  rw [h]

theorem getOrCreate_bounds (cfg : RateLimitConfig) {T now : ℚ} {s : Store} (k : String)
    (hcap : 0 ≤ cfg.capacity) (hT : T ≤ now) (hs : StoreInv cfg T s) :
    0 ≤ (getOrCreate cfg now s k).tokens ∧
      (getOrCreate cfg now s k).tokens ≤ cfg.capacity ∧
      (getOrCreate cfg now s k).lastRefillTime ≤ now := by
  cases h : Store.get s k with
  | none =>
      rw [getOrCreate_of_none h]
      exact ⟨hcap, le_refl _, le_refl _⟩
  | some b =>
      rw [getOrCreate_of_get h]
      obtain ⟨h1, h2, h3⟩ := hs (k, b) (get_mem h)
      exact ⟨h1, h2, le_trans h3 hT⟩

theorem postTokens_bounds (cfg : RateLimitConfig) {T now : ℚ} {s : Store} (k : String)
    (hcap : 0 ≤ cfg.capacity) (hrate : 0 ≤ cfg.refillRate) (hT : T ≤ now)
    (hs : StoreInv cfg T s) :
    0 ≤ postTokens cfg now s k ∧ postTokens cfg now s k ≤ cfg.capacity := by
  obtain ⟨h1, h2, h3⟩ := getOrCreate_bounds cfg k hcap hT hs
  have hnn := refillTokens_nonneg cfg hcap hrate h1 h3
  have hle := refillTokens_le cfg now (getOrCreate cfg now s k)
  unfold postTokens
  by_cases h : 1 ≤ refillTokens cfg now (getOrCreate cfg now s k)
  · rw [if_pos h]
    constructor
    · linarith
    · linarith
  · rw [if_neg h]
    exact ⟨hnn, hle⟩

theorem step_inv (cfg : RateLimitConfig) {T now : ℚ} {s : Store} (k : String)
    (hcap : 0 ≤ cfg.capacity) (hrate : 0 ≤ cfg.refillRate) (hT : T ≤ now)
    (hs : StoreInv cfg T s) :
    StoreInv cfg now (isAllowed cfg now s k).2 := by
  rw [isAllowed_snd]
  intro e he
  rcases mem_set he with rfl | hmem
  · obtain ⟨h1, h2⟩ := postTokens_bounds cfg k hcap hrate hT hs
    exact ⟨h1, h2, le_refl _⟩
  · obtain ⟨h1, h2, h3⟩ := hs e hmem
    exact ⟨h1, h2, le_trans h3 hT⟩

theorem runTrace_inv (cfg : RateLimitConfig)
    (hcap : 0 ≤ cfg.capacity) (hrate : 0 ≤ cfg.refillRate) :
    ∀ (calls : List (ℚ × String)) (T : ℚ) (s : Store), StoreInv cfg T s →
      List.Chain (fun a b => a ≤ b) T (List.map Prod.fst calls) →
      ∃ T2, StoreInv cfg T2 (runTrace cfg s calls) := by
  intro calls
  induction calls with
  | nil =>
      intro T s hs _
      exact ⟨T, by simpa [runTrace] using hs⟩
  | cons c rest ih =>
      intro T s hs hchain
      rw [List.map_cons, List.chain_cons] at hchain
      have hstep := step_inv cfg c.2 hcap hrate hchain.1 hs
      have hrest := ih c.1 (isAllowed cfg c.1 s c.2).2 hstep hchain.2
      simpa [runTrace] using hrest

theorem allowedCount_le_tokens (cfg : RateLimitConfig) (now : ℚ) (k : String) :
    ∀ (n : ℕ) (s : Store) (t : ℚ),
      Store.get s k = some { tokens := t, lastRefillTime := now } →
      0 ≤ t → t ≤ cfg.capacity →
      (allowedCount cfg now k s n : ℚ) ≤ t := by
  intro n
  induction n with
  | zero =>
      intro s t _ h0 _
      simpa [allowedCount] using h0
  | succ n ih =>
      intro s t hget h0 hcap
      have hb : getOrCreate cfg now s k = { tokens := t, lastRefillTime := now } :=
        getOrCreate_of_get hget
      have ht1 : refillTokens cfg now (getOrCreate cfg now s k) = t := by
        rw [hb, refill_now, min_eq_right hcap]
      have hsnd := isAllowed_snd cfg now s k
      by_cases h : 1 ≤ refillTokens cfg now (getOrCreate cfg now s k)
      · have ht : 1 ≤ t := ht1 ▸ h
        have hp : postTokens cfg now s k = t - 1 := by
          unfold postTokens
          rw [if_pos h, ht1]
        have hget2 : Store.get (isAllowed cfg now s k).2 k =
            some { tokens := t - 1, lastRefillTime := now } := by
          rw [hsnd, hp]
          exact get_set_self s k _
        have hcount := ih (isAllowed cfg now s k).2 (t - 1) hget2 (by linarith) (by linarith)
        have hall := (allowed_iff cfg now s k).mpr h
        have heq : allowedCount cfg now k s (n + 1) =
            1 + allowedCount cfg now k (isAllowed cfg now s k).2 n := by
          simp [allowedCount, hall]
        rw [heq]
        push_cast
        linarith
      · have hp : postTokens cfg now s k = t := by
          unfold postTokens
          rw [if_neg h, ht1]
        have hget2 : Store.get (isAllowed cfg now s k).2 k =
            some { tokens := t, lastRefillTime := now } := by
          rw [hsnd, hp]
          exact get_set_self s k _
        have hcount := ih (isAllowed cfg now s k).2 t hget2 h0 hcap
        have hall := allowed_eq_false cfg now s k h
        have heq : allowedCount cfg now k s (n + 1) =
            allowedCount cfg now k (isAllowed cfg now s k).2 n := by
          simp [allowedCount, hall]
        rw [heq]
        exact hcount

theorem allowedCount_le_capacity (cfg : RateLimitConfig) {T now : ℚ} {s : Store}
    (k : String) (n : ℕ) (hcap : 0 ≤ cfg.capacity) (hrate : 0 ≤ cfg.refillRate)
    (hT : T ≤ now) (hs : StoreInv cfg T s) :
    (allowedCount cfg now k s n : ℚ) ≤ cfg.capacity := by
  cases n with
  | zero => simpa [allowedCount] using hcap
  | succ n =>
      have hget2 : Store.get (isAllowed cfg now s k).2 k =
          some { tokens := postTokens cfg now s k, lastRefillTime := now } := by
        rw [isAllowed_snd]
        exact get_set_self s k _
      obtain ⟨hp1, hp2⟩ := postTokens_bounds cfg k hcap hrate hT hs
      have hcount := allowedCount_le_tokens cfg now k n (isAllowed cfg now s k).2
        (postTokens cfg now s k) hget2 hp1 hp2
      have hle := refillTokens_le cfg now (getOrCreate cfg now s k)
      by_cases h : 1 ≤ refillTokens cfg now (getOrCreate cfg now s k)
      · have hall := (allowed_iff cfg now s k).mpr h
        have heq : allowedCount cfg now k s (n + 1) =
            1 + allowedCount cfg now k (isAllowed cfg now s k).2 n := by
          simp [allowedCount, hall]
        have hp : postTokens cfg now s k =
            refillTokens cfg now (getOrCreate cfg now s k) - 1 := by
          unfold postTokens
          rw [if_pos h]
        rw [heq]
        push_cast
        rw [hp] at hcount
        linarith
      · have hall := allowed_eq_false cfg now s k h
        have heq : allowedCount cfg now k s (n + 1) =
            allowedCount cfg now k (isAllowed cfg now s k).2 n := by
          simp [allowedCount, hall]
        have hp : postTokens cfg now s k =
            refillTokens cfg now (getOrCreate cfg now s k) := by
          unfold postTokens
          rw [if_neg h]
        rw [heq]
        rw [hp] at hcount
        linarith

/-- Claim C1: with `capacity > 0` and `refillRate > 0` and non-decreasing
clock readings, every bucket in the store satisfies
`0 ≤ tokens ≤ capacity` after every `isAllowed` call of any call sequence
(in particular an arbitrarily long wait never raises `tokens` above
`capacity`), and a run of same-time checks issued after any idle period
admits at most `⌊capacity⌋` requests. -/
theorem bucket_tokens_invariant (cfg : RateLimitConfig)
    (hcap : 0 < cfg.capacity) (hrate : 0 < cfg.refillRate) :
    (∀ calls : List (ℚ × String),
       List.Chain' (fun a b => a ≤ b) (List.map Prod.fst calls) →
       ∀ e ∈ runTrace cfg [] calls,
         0 ≤ (Prod.snd e).tokens ∧ (Prod.snd e).tokens ≤ cfg.capacity) ∧
    (∀ (T now : ℚ) (s : Store) (k : String) (n : ℕ), StoreInv cfg T s → T ≤ now →
       (allowedCount cfg now k s n : ℤ) ≤ ⌊cfg.capacity⌋) := by
  constructor
  · intro calls hchain e he
    match calls, hchain, he with
    | [], _, he => simp [runTrace] at he
    | c :: rest, hchain, he =>
        rw [List.map_cons] at hchain
        have h2 : List.Chain (fun a b => a ≤ b) c.1 (List.map Prod.fst rest) := hchain
        have hchainT : List.Chain (fun a b => a ≤ b) c.1
            (List.map Prod.fst (c :: rest)) := by
          rw [List.map_cons, List.chain_cons]
          exact ⟨le_refl _, h2⟩
        have hemp : StoreInv cfg c.1 [] := by
          intro x hx
          exact absurd hx (List.not_mem_nil x)
        obtain ⟨T2, hinv⟩ := runTrace_inv cfg (le_of_lt hcap) (le_of_lt hrate)
          (c :: rest) c.1 [] hemp hchainT
        exact ⟨(hinv e he).1, (hinv e he).2.1⟩
  · intro T now s k n hs hT
    rw [Int.le_floor]
    push_cast
    exact allowedCount_le_capacity cfg k n (le_of_lt hcap) (le_of_lt hrate) hT hs

/-- Witness for claim C1: with the auth policy, seven same-time checks of a
fresh key admit at most `⌊5⌋ = 5` requests. -/
theorem bucket_tokens_invariant_witness :
    (allowedCount authConfig 0 "1.2.3.4" [] 7 : ℤ) ≤ ⌊authConfig.capacity⌋ := by
  refine (bucket_tokens_invariant authConfig ?_ ?_).2 0 0 [] "1.2.3.4" 7 ?_ (le_refl 0)
  · norm_num [authConfig]
  · norm_num [authConfig]
  · intro x hx
    exact absurd hx (List.not_mem_nil x)

theorem repeat_get_aux (cfg : RateLimitConfig) (now : ℚ) (k : String) :
    ∀ (j : ℕ) (s : Store) (t : ℚ),
      Store.get s k = some { tokens := t, lastRefillTime := now } →
      t ≤ cfg.capacity → (j : ℚ) ≤ t →
      Store.get (repeatCalls cfg now k s j) k =
        some { tokens := t - (j : ℚ), lastRefillTime := now } := by
  intro j
  induction j with
  | zero =>
      intro s t hget _ _
      simpa [repeatCalls] using hget
  | succ j ih =>
      intro s t hget hcap hj
      have hj0 : (0 : ℚ) ≤ (j : ℚ) := Nat.cast_nonneg j
      have hj1 : (j : ℚ) + 1 ≤ t := by
        push_cast at hj
        linarith
      have h1t : (1 : ℚ) ≤ t := by linarith
      have hb : getOrCreate cfg now s k = { tokens := t, lastRefillTime := now } :=
        getOrCreate_of_get hget
      have ht1 : refillTokens cfg now (getOrCreate cfg now s k) = t := by
        rw [hb, refill_now, min_eq_right hcap]
      have h : 1 ≤ refillTokens cfg now (getOrCreate cfg now s k) := by
        rw [ht1]
        exact h1t
      have hp : postTokens cfg now s k = t - 1 := by
        unfold postTokens
        rw [if_pos h, ht1]
      have hget2 : Store.get (isAllowed cfg now s k).2 k =
          some { tokens := t - 1, lastRefillTime := now } := by
        rw [isAllowed_snd, hp]
        exact get_set_self s k _
      have hrec := ih (isAllowed cfg now s k).2 (t - 1) hget2 (by linarith) (by linarith)
      have hstep : repeatCalls cfg now k s (j + 1) =
          repeatCalls cfg now k (isAllowed cfg now s k).2 j := rfl
      rw [hstep, hrec]
      have heq : t - 1 - (j : ℚ) = t - ((j + 1 : ℕ) : ℚ) := by
        push_cast
        ring
      rw [heq]

theorem getOrCreate_repeat (m : ℕ) (r now : ℚ) (k : String) :
    ∀ j : ℕ, (j : ℚ) ≤ (m : ℚ) →
      getOrCreate { capacity := (m : ℚ), refillRate := r } now
        (repeatCalls { capacity := (m : ℚ), refillRate := r } now k [] j) k =
      { tokens := (m : ℚ) - (j : ℚ), lastRefillTime := now } := by
  intro j hj
  cases j with
  | zero =>
      have hnone : Store.get ([] : Store) k = none := rfl
      rw [show repeatCalls { capacity := (m : ℚ), refillRate := r } now k [] 0 =
          ([] : Store) from rfl, getOrCreate_of_none hnone]
      norm_num
  | succ j =>
      have hj0 : (0 : ℚ) ≤ (j : ℚ) := Nat.cast_nonneg j
      have hj1 : (j : ℚ) + 1 ≤ (m : ℚ) := by
        push_cast at hj
        linarith
      have hnone : Store.get ([] : Store) k = none := rfl
      have hb : getOrCreate { capacity := (m : ℚ), refillRate := r } now [] k =
          { tokens := (m : ℚ), lastRefillTime := now } := getOrCreate_of_none hnone
      have ht1 : refillTokens { capacity := (m : ℚ), refillRate := r } now
          (getOrCreate { capacity := (m : ℚ), refillRate := r } now [] k) = (m : ℚ) := by
        rw [hb, refill_now, min_self]
      have h : 1 ≤ refillTokens { capacity := (m : ℚ), refillRate := r } now
          (getOrCreate { capacity := (m : ℚ), refillRate := r } now [] k) := by
        rw [ht1]
        linarith
      have hp : postTokens { capacity := (m : ℚ), refillRate := r } now [] k = (m : ℚ) - 1 := by
        unfold postTokens
        rw [if_pos h, ht1]
      have hget2 : Store.get (isAllowed { capacity := (m : ℚ), refillRate := r } now [] k).2 k =
          some { tokens := (m : ℚ) - 1, lastRefillTime := now } := by
        rw [isAllowed_snd, hp]
        exact get_set_self [] k _
      have hrec := repeat_get_aux { capacity := (m : ℚ), refillRate := r } now k j
        (isAllowed { capacity := (m : ℚ), refillRate := r } now [] k).2
        ((m : ℚ) - 1) hget2 (by linarith) (by linarith)
      have hstep : repeatCalls { capacity := (m : ℚ), refillRate := r } now k [] (j + 1) =
          repeatCalls { capacity := (m : ℚ), refillRate := r } now k
            (isAllowed { capacity := (m : ℚ), refillRate := r } now [] k).2 j := rfl
      rw [hstep, getOrCreate_of_get hrec]
      have heq : (m : ℚ) - 1 - (j : ℚ) = (m : ℚ) - ((j + 1 : ℕ) : ℚ) := by
        push_cast
        ring
      rw [heq]

theorem nthDecision_allowed_fields (m : ℕ) (r now : ℚ) (k : String) (i : ℕ) (hi : i < m) :
    (nthDecision { capacity := (m : ℚ), refillRate := r } now k [] i).allowed = true ∧
    (nthDecision { capacity := (m : ℚ), refillRate := r } now k [] i).tokensRemaining =
      (m : ℤ) - 1 - (i : ℤ) := by
  have hi0 : (0 : ℚ) ≤ (i : ℚ) := Nat.cast_nonneg i
  have hi1 : (i : ℚ) + 1 ≤ (m : ℚ) := by
    have := Nat.succ_le_of_lt hi
    exact_mod_cast this
  have hg := getOrCreate_repeat m r now k i (by linarith)
  have ht1 : refillTokens { capacity := (m : ℚ), refillRate := r } now
      (getOrCreate { capacity := (m : ℚ), refillRate := r } now
        (repeatCalls { capacity := (m : ℚ), refillRate := r } now k [] i) k) =
      (m : ℚ) - (i : ℚ) := by
    rw [hg, refill_now, min_eq_right (by linarith)]
  have h : 1 ≤ refillTokens { capacity := (m : ℚ), refillRate := r } now
      (getOrCreate { capacity := (m : ℚ), refillRate := r } now
        (repeatCalls { capacity := (m : ℚ), refillRate := r } now k [] i) k) := by
    rw [ht1]
    linarith
  unfold nthDecision
  rw [isAllowed_fst_pos _ _ _ _ h]
  refine ⟨rfl, ?_⟩
  show ⌊refillTokens { capacity := (m : ℚ), refillRate := r } now
      (getOrCreate { capacity := (m : ℚ), refillRate := r } now
        (repeatCalls { capacity := (m : ℚ), refillRate := r } now k [] i) k) - 1⌋ =
    (m : ℤ) - 1 - (i : ℤ)
  rw [ht1]
  have heq : (m : ℚ) - (i : ℚ) - 1 = (((m : ℤ) - 1 - (i : ℤ) : ℤ) : ℚ) := by
    push_cast
    ring
  rw [heq, Int.floor_intCast]

theorem nthDecision_denied_eq (m : ℕ) (r now : ℚ) (k : String) :
    nthDecision { capacity := (m : ℚ), refillRate := r } now k [] m =
      { allowed := false
        tokensRemaining := 0
        resetTime := ⌈((1 : ℚ) / r) * 1000⌉ } := by
  have hg := getOrCreate_repeat m r now k m (le_refl _)
  have hm0 : (0 : ℚ) ≤ (m : ℚ) := Nat.cast_nonneg m
  have ht1 : refillTokens { capacity := (m : ℚ), refillRate := r } now
      (getOrCreate { capacity := (m : ℚ), refillRate := r } now
        (repeatCalls { capacity := (m : ℚ), refillRate := r } now k [] m) k) = 0 := by
    rw [hg, refill_now]
    have hz : (m : ℚ) - (m : ℚ) = 0 := by ring
    rw [hz, min_eq_right hm0]
  have h : ¬1 ≤ refillTokens { capacity := (m : ℚ), refillRate := r } now
      (getOrCreate { capacity := (m : ℚ), refillRate := r } now
        (repeatCalls { capacity := (m : ℚ), refillRate := r } now k [] m) k) := by
    rw [ht1]
    norm_num
  unfold nthDecision
  rw [isAllowed_fst_neg _ _ _ _ h, ht1]
  norm_num

/-- Claim C2: against a never-before-seen key with integer capacity
`m ≥ 1` and no time elapsing, the first `m` checks are admitted with
`tokensRemaining` counting down `m-1, ..., 1, 0` and the `(m+1)`-th check
is denied; concretely for the auth policy (`capacity = 5`,
`refillRate = 5/900`) the five admitted calls report `tokensRemaining`
`4, 3, 2, 1, 0` and the 6th call returns `allowed = false`,
`tokensRemaining = 0`, `resetTime = 180000`. -/
theorem fresh_bucket_admission (m : ℕ) (r now : ℚ) (k : String) (hm : 1 ≤ m) :
    (∀ i : ℕ, i < m →
       (nthDecision { capacity := (m : ℚ), refillRate := r } now k [] i).allowed = true ∧
       (nthDecision { capacity := (m : ℚ), refillRate := r } now k [] i).tokensRemaining =
         (m : ℤ) - 1 - (i : ℤ)) ∧
    (nthDecision { capacity := (m : ℚ), refillRate := r } now k [] m).allowed = false ∧
    (∀ i : ℕ, i < 5 →
       (nthDecision authConfig 0 "1.2.3.4" [] i).allowed = true ∧
       (nthDecision authConfig 0 "1.2.3.4" [] i).tokensRemaining = 4 - (i : ℤ)) ∧
    nthDecision authConfig 0 "1.2.3.4" [] 5 =
      { allowed := false, tokensRemaining := 0, resetTime := 180000 } := by
  have hauth : authConfig = { capacity := ((5 : ℕ) : ℚ), refillRate := 5 / 900 } := by
    norm_num [authConfig]
  refine ⟨fun i hi => nthDecision_allowed_fields m r now k i hi, ?_, ?_, ?_⟩
  · rw [nthDecision_denied_eq m r now k]
  · intro i hi
    have hfields := nthDecision_allowed_fields 5 (5 / 900) 0 "1.2.3.4" i hi
    rw [hauth]
    refine ⟨hfields.1, ?_⟩
    rw [hfields.2]
    norm_num
  · rw [hauth, nthDecision_denied_eq 5 (5 / 900) 0 "1.2.3.4"]
    norm_num

/-- Witness for claim C2: with integer capacity 5 and the auth refill rate,
the very first check of a fresh key is admitted with 4 tokens remaining,
and the 6th back-to-back check is denied with `resetTime = 180000`. -/
theorem fresh_bucket_admission_witness :
    (nthDecision { capacity := ((5 : ℕ) : ℚ), refillRate := 5 / 900 } 0 "1.2.3.4" [] 0).allowed
        = true ∧
    (nthDecision { capacity := ((5 : ℕ) : ℚ), refillRate := 5 / 900 } 0 "1.2.3.4" []
        0).tokensRemaining = 4 ∧
    nthDecision authConfig 0 "1.2.3.4" [] 5 =
      { allowed := false, tokensRemaining := 0, resetTime := 180000 } := by
  have h := fresh_bucket_admission 5 (5 / 900) 0 "1.2.3.4" (by norm_num)
  obtain ⟨h1, _, _, h4⟩ := h
  obtain ⟨ha, hb⟩ := h1 0 (by norm_num)
  refine ⟨ha, ?_, h4⟩
  rw [hb]
  norm_num

/-- Claim C3: every call first refills the bucket, returns
`allowed = true` exactly when the refilled count is at least 1, consumes
exactly one token on an admitted outcome and none on a denied one, and
every denied decision carries `tokensRemaining = 0` (also for positive
fractional counts). -/
theorem refill_then_consume (cfg : RateLimitConfig) (now : ℚ) (s : Store) (k : String) :
    ((isAllowed cfg now s k).1.allowed = true ↔
       1 ≤ refillTokens cfg now (getOrCreate cfg now s k)) ∧
    Store.get (isAllowed cfg now s k).2 k =
      some { tokens :=
               if 1 ≤ refillTokens cfg now (getOrCreate cfg now s k) then
                 refillTokens cfg now (getOrCreate cfg now s k) - 1
               else refillTokens cfg now (getOrCreate cfg now s k)
             lastRefillTime := now } ∧
    ((isAllowed cfg now s k).1.allowed = false →
       (isAllowed cfg now s k).1.tokensRemaining = 0) := by
  refine ⟨allowed_iff cfg now s k, ?_, ?_⟩
  · rw [isAllowed_snd, get_set_self]
    rfl
  · intro hfalse
    by_cases h : 1 ≤ refillTokens cfg now (getOrCreate cfg now s k)
    · have h1 := (allowed_iff cfg now s k).mpr h
      rw [h1] at hfalse
      simp at hfalse
    · rw [isAllowed_fst_neg _ _ _ _ h]

/-- Witness for claim C3: a bucket holding half a token denies the request
and reports zero remaining tokens. -/
theorem refill_then_consume_witness :
    (isAllowed authConfig 0
        [("a", { tokens := 1 / 2, lastRefillTime := 0 })] "a").1.tokensRemaining = 0 := by
  refine (refill_then_consume authConfig 0
    [("a", { tokens := 1 / 2, lastRefillTime := 0 })] "a").2.2 ?_
  apply allowed_eq_false
  norm_num [refillTokens, getOrCreate, Store.get, authConfig]

/-- Claim C4: `resetTime` carries different units in the two branches: on
an admitted check it is `⌈(capacity - tokens after consumption) /
refillRate⌉`, whole seconds until the bucket is full again; on a denied
check it is `⌈((1 - tokens) / refillRate) * 1000⌉`, milliseconds until the
next single token. -/
theorem resetTime_branch_units (cfg : RateLimitConfig) (now : ℚ) (s : Store) (k : String) :
    ((isAllowed cfg now s k).1.allowed = true →
       (isAllowed cfg now s k).1.resetTime =
         ⌈(cfg.capacity - postTokens cfg now s k) / cfg.refillRate⌉) ∧
    ((isAllowed cfg now s k).1.allowed = false →
       (isAllowed cfg now s k).1.resetTime =
         ⌈((1 - postTokens cfg now s k) / cfg.refillRate) * 1000⌉) := by
  by_cases h : 1 ≤ refillTokens cfg now (getOrCreate cfg now s k)
  · constructor
    · intro _
      have hp : postTokens cfg now s k =
          refillTokens cfg now (getOrCreate cfg now s k) - 1 := by
        unfold postTokens
        rw [if_pos h]
      rw [isAllowed_fst_pos _ _ _ _ h, hp]
    · intro hfalse
      have h1 := (allowed_iff cfg now s k).mpr h
      rw [h1] at hfalse
      simp at hfalse
  · constructor
    · intro htrue
      have h1 := allowed_eq_false cfg now s k h
      rw [h1] at htrue
      simp at htrue
    · intro _
      have hp : postTokens cfg now s k =
          refillTokens cfg now (getOrCreate cfg now s k) := by
        unfold postTokens
        rw [if_neg h]
      rw [isAllowed_fst_neg _ _ _ _ h, hp]

/-- Witness for claim C4: the admitted branch at a fresh auth bucket and
the denied branch at a half-full bucket both match their formulas. -/
theorem resetTime_branch_units_witness :
    (isAllowed authConfig 0 [] "a").1.resetTime =
      ⌈(authConfig.capacity - postTokens authConfig 0 [] "a") / authConfig.refillRate⌉ ∧
    (isAllowed authConfig 0
        [("a", { tokens := 1 / 2, lastRefillTime := 0 })] "a").1.resetTime =
      ⌈((1 - postTokens authConfig 0
            [("a", { tokens := 1 / 2, lastRefillTime := 0 })] "a") /
          authConfig.refillRate) * 1000⌉ := by
  constructor
  · refine (resetTime_branch_units authConfig 0 [] "a").1 ?_
    apply (allowed_iff authConfig 0 [] "a").mpr
    norm_num [refillTokens, getOrCreate, Store.get, authConfig]
  · refine (resetTime_branch_units authConfig 0
      [("a", { tokens := 1 / 2, lastRefillTime := 0 })] "a").2 ?_
    apply allowed_eq_false
    norm_num [refillTokens, getOrCreate, Store.get, authConfig]

theorem getOrCreate_congr (cfg : RateLimitConfig) (now : ℚ) (s1 s2 : Store) (k : String)
    (h : Store.get s1 k = Store.get s2 k) :
    getOrCreate cfg now s1 k = getOrCreate cfg now s2 k := by
  unfold getOrCreate
  rw [h]

theorem fst_congr (cfg : RateLimitConfig) (now : ℚ) (s1 s2 : Store) (k : String)
    (h : getOrCreate cfg now s1 k = getOrCreate cfg now s2 k) :
    (isAllowed cfg now s1 k).1 = (isAllowed cfg now s2 k).1 := by
  by_cases hc : 1 ≤ refillTokens cfg now (getOrCreate cfg now s1 k)
  · rw [isAllowed_fst_pos _ _ _ _ hc, isAllowed_fst_pos _ _ _ _ (h ▸ hc), h]
  · rw [isAllowed_fst_neg _ _ _ _ hc, isAllowed_fst_neg _ _ _ _ (h ▸ hc), h]

theorem snd_get_congr (cfg : RateLimitConfig) (now : ℚ) (s1 s2 : Store) (k : String)
    (h : getOrCreate cfg now s1 k = getOrCreate cfg now s2 k) :
    Store.get (isAllowed cfg now s1 k).2 k = Store.get (isAllowed cfg now s2 k).2 k := by
  rw [isAllowed_snd, isAllowed_snd, get_set_self, get_set_self]
  have hp : postTokens cfg now s1 k = postTokens cfg now s2 k := by
    unfold postTokens
    rw [h]
  rw [hp]

/-- Claim C5: every call stamps `lastRefillTime = now` unconditionally
(also on denied requests), so refill accrues from the last check; and a
bucket drained to 0 tokens admits the next request exactly when
`1 / refillRate` seconds have elapsed since that check, consuming the
newly accrued token. -/
theorem lastRefill_stamped_and_refill_over_time (cfg : RateLimitConfig)
    (hrate : 0 < cfg.refillRate) (hcap : 1 ≤ cfg.capacity) :
    (∀ (now : ℚ) (s : Store) (k : String) (b : TokenBucket),
       Store.get (isAllowed cfg now s k).2 k = some b → b.lastRefillTime = now) ∧
    (∀ (now t0 : ℚ) (s : Store) (k : String),
       Store.get s k = some { tokens := 0, lastRefillTime := t0 } → t0 ≤ now →
       ((isAllowed cfg now s k).1.allowed = true ↔
          1 / cfg.refillRate ≤ (now - t0) / 1000) ∧
       ((isAllowed cfg now s k).1.allowed = true →
          Store.get (isAllowed cfg now s k).2 k =
            some { tokens := min cfg.capacity (((now - t0) / 1000) * cfg.refillRate) - 1
                   lastRefillTime := now })) := by
  constructor
  · intro now s k b hb
    rw [isAllowed_snd, get_set_self] at hb
    have hb2 : ({ tokens := postTokens cfg now s k, lastRefillTime := now } : TokenBucket)
        = b := by injection hb
    rw [← hb2]
  · intro now t0 s k hget ht
    have hb : getOrCreate cfg now s k = { tokens := 0, lastRefillTime := t0 } :=
      getOrCreate_of_get hget
    have ht1 : refillTokens cfg now (getOrCreate cfg now s k) =
        min cfg.capacity (((now - t0) / 1000) * cfg.refillRate) := by
      rw [hb]
      simp [refillTokens]
    have hiff : 1 ≤ refillTokens cfg now (getOrCreate cfg now s k) ↔
        1 / cfg.refillRate ≤ (now - t0) / 1000 := by
      rw [ht1]
      constructor
      · intro h1
        rw [div_le_iff₀ hrate]
        exact le_trans h1 (min_le_right _ _)
      · intro h2
        rw [div_le_iff₀ hrate] at h2
        exact le_min hcap h2
    refine ⟨(allowed_iff cfg now s k).trans hiff, ?_⟩
    intro hallow
    have h := (allowed_iff cfg now s k).mp hallow
    have hp : postTokens cfg now s k =
        min cfg.capacity (((now - t0) / 1000) * cfg.refillRate) - 1 := by
      unfold postTokens
      rw [if_pos h, ht1]
    rw [isAllowed_snd, get_set_self, hp]

/-- Witness for claim C5: an auth bucket drained at time 0 admits a check
at time 180000 ms, which is exactly `1 / (5/900) = 180` seconds later. -/
theorem lastRefill_stamped_and_refill_over_time_witness :
    (isAllowed authConfig 180000
        [("a", { tokens := 0, lastRefillTime := 0 })] "a").1.allowed = true := by
  have h := (lastRefill_stamped_and_refill_over_time authConfig
      (by norm_num [authConfig]) (by norm_num [authConfig])).2
    180000 0 [("a", { tokens := 0, lastRefillTime := 0 })] "a"
    (by simp [Store.get]) (by norm_num)
  exact h.1.mpr (by norm_num [authConfig])

/-- Claim C6: `isAllowed k` reads and writes only the bucket stored under
`k`: the bucket of every other key is left unchanged. -/
theorem distinct_keys_independent (cfg : RateLimitConfig) (now : ℚ) (s : Store)
    (k k2 : String) (h : k2 ≠ k) :
    Store.get (isAllowed cfg now s k).2 k2 = Store.get s k2 := by
  rw [isAllowed_snd]
  exact get_set_ne s k k2 _ h

/-- Witness for claim C6: checking key "a" leaves the bucket of "b"
untouched. -/
theorem distinct_keys_independent_witness :
    Store.get (isAllowed authConfig 0
        [("b", { tokens := 2, lastRefillTime := 0 })] "a").2 "b" =
      Store.get [("b", { tokens := 2, lastRefillTime := 0 })] "b" :=
  distinct_keys_independent authConfig 0
    [("b", { tokens := 2, lastRefillTime := 0 })] "a" "b" (by simp)

/-- Claim C7: `resetBucket` deletes the bucket of the key, is a no-op when
the key is absent (no error in either case), and the next check of the key
behaves identically to the very first check of a brand-new key: same
decision, same recreated full bucket, and when `capacity ≥ 1` the request
is admitted. -/
theorem resetBucket_fresh_behavior (cfg : RateLimitConfig) (now : ℚ) (s : Store)
    (k : String) :
    Store.get (resetBucket s k) k = none ∧
    (Store.get s k = none → resetBucket s k = s) ∧
    (isAllowed cfg now (resetBucket s k) k).1 = (isAllowed cfg now [] k).1 ∧
    Store.get (isAllowed cfg now (resetBucket s k) k).2 k =
      Store.get (isAllowed cfg now [] k).2 k ∧
    (1 ≤ cfg.capacity → (isAllowed cfg now (resetBucket s k) k).1.allowed = true) := by
  have hd : Store.get (resetBucket s k) k = none := by
    unfold resetBucket
    exact get_delete_self s k
  have hnil : Store.get ([] : Store) k = none := rfl
  have hg : getOrCreate cfg now (resetBucket s k) k = getOrCreate cfg now [] k := by
    rw [getOrCreate_of_none hd, getOrCreate_of_none hnil]
  refine ⟨hd, fun h => ?_, fst_congr cfg now _ [] k hg,
    snd_get_congr cfg now _ [] k hg, fun hc => ?_⟩
  · unfold resetBucket
    exact delete_of_get_none h
  · apply (allowed_iff cfg now (resetBucket s k) k).mpr
    rw [getOrCreate_of_none hd, refill_now, min_self]
    exact hc

/-- Witness for claim C7: after resetting a partially drained auth bucket,
the next check of the same key is admitted. -/
theorem resetBucket_fresh_behavior_witness :
    (isAllowed authConfig 7
        (resetBucket [("a", { tokens := 1 / 2, lastRefillTime := 3 })] "a") "a").1.allowed
      = true :=
  (resetBucket_fresh_behavior authConfig 7
    [("a", { tokens := 1 / 2, lastRefillTime := 3 })] "a").2.2.2.2
    (by norm_num [authConfig])

/-- Claim C8: for any client key (the empty string included) and any
limiter with `capacity > 0`, `isAllowed` returns a well-formed decision
whose `tokensRemaining` is a non-negative integer at most `⌊capacity⌋`;
an absent bucket is auto-created rather than faulting. -/
theorem decision_wellformed_bounds (cfg : RateLimitConfig) (now : ℚ) (s : Store)
    (k : String) (hcap : 0 < cfg.capacity) :
    0 ≤ (isAllowed cfg now s k).1.tokensRemaining ∧
    (isAllowed cfg now s k).1.tokensRemaining ≤ ⌊cfg.capacity⌋ := by
  by_cases h : 1 ≤ refillTokens cfg now (getOrCreate cfg now s k)
  · rw [isAllowed_fst_pos _ _ _ _ h]
    have hle := refillTokens_le cfg now (getOrCreate cfg now s k)
    constructor
    · show (0 : ℤ) ≤ ⌊refillTokens cfg now (getOrCreate cfg now s k) - 1⌋
      apply Int.floor_nonneg.mpr
      linarith
    · show ⌊refillTokens cfg now (getOrCreate cfg now s k) - 1⌋ ≤ ⌊cfg.capacity⌋
      apply Int.floor_le_floor
      linarith
  · rw [isAllowed_fst_neg _ _ _ _ h]
    constructor
    · exact le_refl 0
    · show (0 : ℤ) ≤ ⌊cfg.capacity⌋
      exact Int.floor_nonneg.mpr (le_of_lt hcap)

/-- Witness for claim C8: a check with the empty string as key returns
bounded tokensRemaining. -/
theorem decision_wellformed_bounds_witness :
    0 ≤ (isAllowed authConfig 0 [] "").1.tokensRemaining ∧
    (isAllowed authConfig 0 [] "").1.tokensRemaining ≤ ⌊authConfig.capacity⌋ :=
  decision_wellformed_bounds authConfig 0 [] "" (by norm_num [authConfig])

/-- Claim C9: `isAllowed` is a deterministic function of the stored
buckets and the clock reading, and it depends on the store only through
the bucket at the checked key: stores agreeing there yield the identical
decision and identical post-call bucket at that key. -/
theorem isAllowed_deterministic (cfg : RateLimitConfig) (now : ℚ) (s1 s2 : Store)
    (k : String) (h : Store.get s1 k = Store.get s2 k) :
    (isAllowed cfg now s1 k).1 = (isAllowed cfg now s2 k).1 ∧
    Store.get (isAllowed cfg now s1 k).2 k = Store.get (isAllowed cfg now s2 k).2 k := by
  have hg := getOrCreate_congr cfg now s1 s2 k h
  exact ⟨fst_congr cfg now s1 s2 k hg, snd_get_congr cfg now s1 s2 k hg⟩

/-- Witness for claim C9: an unrelated entry for key "b" does not change
the decision for key "a". -/
theorem isAllowed_deterministic_witness :
    (isAllowed authConfig 0 [("b", { tokens := 2, lastRefillTime := 0 }),
        ("a", { tokens := 3, lastRefillTime := 0 })] "a").1 =
      (isAllowed authConfig 0 [("a", { tokens := 3, lastRefillTime := 0 })] "a").1 :=
  (isAllowed_deterministic authConfig 0
    [("b", { tokens := 2, lastRefillTime := 0 }),
      ("a", { tokens := 3, lastRefillTime := 0 })]
    [("a", { tokens := 3, lastRefillTime := 0 })] "a" (by simp [Store.get])).1

/-- Claim C10: when `now` is at or after the bucket's `lastRefillTime`, a
denied call never decreases the token count: the post-call count equals
`min(capacity, tokens + elapsedSeconds * refillRate)`, which is at least
the pre-call count, so fractional accrual is preserved across denied
checks. -/
theorem denied_preserves_tokens (cfg : RateLimitConfig) (now t0 t : ℚ) (s : Store)
    (k : String) (hget : Store.get s k = some { tokens := t, lastRefillTime := t0 })
    (ht0 : t0 ≤ now) (htcap : t ≤ cfg.capacity) (hrate : 0 ≤ cfg.refillRate)
    (hden : (isAllowed cfg now s k).1.allowed = false) :
    Store.get (isAllowed cfg now s k).2 k =
      some { tokens := min cfg.capacity (t + ((now - t0) / 1000) * cfg.refillRate)
             lastRefillTime := now } ∧
    t ≤ min cfg.capacity (t + ((now - t0) / 1000) * cfg.refillRate) := by
  have hb : getOrCreate cfg now s k = { tokens := t, lastRefillTime := t0 } :=
    getOrCreate_of_get hget
  have ht1 : refillTokens cfg now (getOrCreate cfg now s k) =
      min cfg.capacity (t + ((now - t0) / 1000) * cfg.refillRate) := by
    rw [hb]
    rfl
  have h : ¬1 ≤ refillTokens cfg now (getOrCreate cfg now s k) := by
    intro hc
    have htrue := (allowed_iff cfg now s k).mpr hc
    rw [htrue] at hden
    simp at hden
  have hp : postTokens cfg now s k =
      min cfg.capacity (t + ((now - t0) / 1000) * cfg.refillRate) := by
    unfold postTokens
    rw [if_neg h, ht1]
  constructor
  · rw [isAllowed_snd, get_set_self, hp]
  · exact le_min htcap (le_add_of_nonneg_right
      (mul_nonneg (div_nonneg (sub_nonneg.mpr ht0) (by norm_num)) hrate))

/-- Witness for claim C10: a denied check against a half-full auth bucket
leaves the half token in place. -/
theorem denied_preserves_tokens_witness :
    Store.get (isAllowed authConfig 0
        [("a", { tokens := 1 / 2, lastRefillTime := 0 })] "a").2 "a" =
      some { tokens := min authConfig.capacity
               ((1 / 2 : ℚ) + ((0 - 0) / 1000) * authConfig.refillRate)
             lastRefillTime := 0 } ∧
    (1 / 2 : ℚ) ≤ min authConfig.capacity
      ((1 / 2 : ℚ) + ((0 - 0) / 1000) * authConfig.refillRate) := by
  apply denied_preserves_tokens authConfig 0 0 (1 / 2)
    [("a", { tokens := 1 / 2, lastRefillTime := 0 })] "a"
    (by simp [Store.get]) (le_refl 0) (by norm_num [authConfig])
    (by norm_num [authConfig])
  apply allowed_eq_false
  norm_num [refillTokens, getOrCreate, Store.get, authConfig]

end TokenBucketLimiter
